import Mathlib

set_option maxHeartbeats 1000000

/-!
Shallow embedding of coracle's publication engine: `src/engine/commands.ts`
(`updateRecord`, `wrapWithFallback`, the group publishing paths, `markAsSeen`)
and the freshness-gated pubkey loader (`getStalePubkeys`, `loadPubkeyData`).
Timestamps and counters are `Int` (JS numbers in the source are integral
seconds).  External collaborators (signer, relay hints, key stores) are
modelled as explicit environment records of functions, since the source reads
them through narrow accessors.
-/

namespace Coracle

/-! ## Record merge (LWW): `updateRecord` of commands.ts -/

abbrev Field := String

/-- JS `record?.[tsField] || -1`: a missing per-field timestamp, and a stored
timestamp of `0` (falsy in JS), both read as `-1`. -/
def coerceTs : Option Int → Int
  | none => -1
  | some t => if t = 0 then -1 else t

/-- JS `record?.updated_at || 0`: a missing record-level timestamp reads as
`0` (a stored `0` also reads as `0`, so only absence matters). -/
def coerceUA : Option Int → Int
  | none => 0
  | some t => if t = 0 then 0 else t

/-- A versioned record: per-field value, per-field `<field>_updated_at` stamp
(kept as a separate map — field names passed by callers never use the
reserved `_updated_at` suffix, so the flat JS object splits into these two
disjoint maps), and the record-level `updated_at`. -/
structure Rec (V : Type) where
  value : Field → Option V
  ts : Field → Option Int
  updated_at : Option Int

/-- The object spread built in the body of the `if` of `updateRecord`:
`{...record, [field]: value, [tsField]: timestamp,
updated_at: Math.max(timestamp, record?.updated_at || 0)}`. -/
def setField {V : Type} (r : Rec V) (f : Field) (v : V) (t : Int) : Rec V :=
  ⟨fun g => if g = f then some v else r.value g,
   fun g => if g = f then some t else r.ts g,
   some (max t (coerceUA r.updated_at))⟩

/-- One iteration of the `for` loop of `updateRecord`: overwrite the field
iff `timestamp > lastUpdated`. -/
def applyField {V : Type} (r : Rec V) (t : Int) (f : Field) (v : V) : Rec V :=
  if t > coerceTs (r.ts f) then setField r f v t else r

/-- `updateRecord(record, timestamp, updates)` from commands.ts: fold the
loop over `Object.entries(updates)` (a JS object; keys are unique and
enumerate in insertion order). -/
def updateRecord {V : Type} (r : Rec V) (t : Int) : List (Field × V) → Rec V
  | [] => r
  | (f, v) :: rest => updateRecord (applyField r t f v) t rest

/-- A finite sequence of `updateRecord` merge operations, applied in list
order. -/
def applyOps {V : Type} (r : Rec V) : List (Int × List (Field × V)) → Rec V
  | [] => r
  | (t, us) :: rest => applyOps (updateRecord r t us) rest

/-- Order on optional record-level timestamps: absent is below everything. -/
def uaLe : Option Int → Option Int → Prop
  | none, _ => True
  | some _, none => False
  | some a, some b => a ≤ b

/-! ## Event templates, envelopes and `wrapWithFallback` -/

/-- The `createEvent` template shape used by commands.ts. -/
structure EventTemplate where
  kind : Int
  tags : List (List String)
  content : String
deriving DecidableEq

/-- The second argument of `nip59.wrap`'s `wrap` option: outer-envelope
author key, recipient, optional kind/algo overrides, extra tags.  Field
order: author, recipient, kind, algo, tags. -/
structure WrapOpts where
  author : Option String
  recipient : Option String
  kind : Option Int
  algo : Option String
  tags : List (List String)
deriving DecidableEq

/-- `nip59.get().wrap(template, {author, wrap})` (external collaborator):
records its parameters; `.wrap` of the result is the outer envelope. -/
structure Rumor where
  rumor : EventTemplate
  sealAuthor : Option String
  wrap : WrapOpts
deriving DecidableEq

def nip59Wrap (template : EventTemplate) (author : Option String)
    (wrap : WrapOpts) : Rumor :=
  ⟨template, author, wrap⟩

/-- `wrapWithFallback(template, {author, wrap})` from commands.ts: one modern
(nip44) envelope when the capability is enabled, otherwise one legacy
(nip04) envelope under kind 1060 with an explicit `algo` marker. -/
def wrapWithFallback (nip44Enabled : Bool) (template : EventTemplate)
    (author : Option String) (wrap : WrapOpts) : List Rumor :=
  if nip44Enabled then
    [nip59Wrap template author wrap]
  else
    [nip59Wrap template author
      ⟨wrap.author, wrap.recipient, some 1060, some "nip04", wrap.tags⟩]

/-- The legacy-suite marker of an envelope: compatibility kind 1060 plus the
`algo: "nip04"` tag. -/
def usesLegacySuite (r : Rumor) : Bool :=
  (r.wrap.kind == some 1060) && (r.wrap.algo == some "nip04")

/-! ## Publishing to groups -/

/-- `string.startsWith(p)` modelled on the character list. -/
def strStartsWith (s p : String) : Bool :=
  p.data.isPrefixOf s.data

/-- `addATags(template, addresses)` from commands.ts. -/
def addATags (template : EventTemplate) (addresses : List String) :
    EventTemplate :=
  ⟨template.kind, template.tags ++ addresses.map (fun a => ["a", a]),
   template.content⟩

/-- `GroupAccess` from src/engine/model (spec section 3). -/
inductive GroupAccess where
  | nullAccess
  | requested
  | granted
  | revoked
deriving DecidableEq

/-- Events handed to the external publisher: either a signed template or a
wrapped rumor's outer envelope. -/
inductive PubEvent where
  | signed (template : EventTemplate) (anonymous : Bool)
  | wrapped (r : Rumor)
deriving DecidableEq

/-- One `publish({event, relays})` call to the external publisher. -/
structure PublishCall where
  event : PubEvent
  relays : List String
deriving DecidableEq

/-- The synchronous validation errors thrown by the publish paths. -/
inductive PubErr where
  | invalidPrivate (address : String)
  | notMember (address : String)
  | invalidPublic (address : String)
deriving DecidableEq

/-- Environment of external collaborators read by the publish paths:
the signer's nip44 capability, group access state, the group shared keys,
and the relay selections returned by `hints`. -/
structure PubEnv where
  nip44Enabled : Bool
  access : String → GroupAccess
  sharedPriv : String → String
  sharedPub : String → String
  contextRelays : String → List String
  eventRelays : EventTemplate → List String
  anonKey : String

/-- Modelled from the spec: `deriveIsGroupMember` lives in src/engine/state,
which is not under src/; per spec section 4.5 a private-group publish
requires the local identity's access status for the address to be
`Granted`. -/
def deriveIsGroupMember (env : PubEnv) (address : String) : Bool :=
  env.access address == GroupAccess.granted

/-- Result of `publishToGroupsPrivately`: `{events, pubs}` (the rumors and
the per-relay publish outcomes, modelled as the calls made). -/
structure PrivResult where
  events : List Rumor
  pubs : List PublishCall
deriving DecidableEq

/-- The envelopes one loop iteration of `publishToGroupsPrivately` produces
for `address`: `wrapWithFallback(thisTemplate, {author, wrap})` with the
group's shared key as wrap author/recipient. -/
def privRumors (env : PubEnv) (anonymous : Bool) (template : EventTemplate)
    (address : String) : List Rumor :=
  wrapWithFallback env.nip44Enabled (addATags template [address])
    (if anonymous then some env.anonKey else none)
    ⟨some (env.sharedPriv address), some (env.sharedPub address),
     none, none, []⟩

/-- The `publish({event: rumor.wrap, relays})` calls one loop iteration of
`publishToGroupsPrivately` makes for `address`. -/
def privCalls (env : PubEnv) (anonymous : Bool) (template : EventTemplate)
    (address : String) : List PublishCall :=
  (privRumors env anonymous template address).map
    (fun r => PublishCall.mk (PubEvent.wrapped r) (env.contextRelays address))

/-- `publishToGroupsPrivately(addresses, template, {anonymous})` from
commands.ts.  The second component of the result is the trace of `publish`
calls actually made — also when the loop later throws, since earlier
iterations already dispatched. -/
def publishToGroupsPrivately (env : PubEnv) (anonymous : Bool)
    (template : EventTemplate) :
    List String → Except PubErr PrivResult × List PublishCall
  | [] => (Except.ok ⟨[], []⟩, [])
  | address :: rest =>
    if strStartsWith address "35834:" = false then
      (Except.error (PubErr.invalidPrivate address), [])
    else if deriveIsGroupMember env address = false then
      (Except.error (PubErr.notMember address), [])
    else
      match publishToGroupsPrivately env anonymous template rest with
      | (Except.ok res, trace) =>
        (Except.ok ⟨privRumors env anonymous template address ++ res.events,
                    privCalls env anonymous template address ++ res.pubs⟩,
         privCalls env anonymous template address ++ trace)
      | (Except.error e, trace) =>
        (Except.error e, privCalls env anonymous template address ++ trace)

/-- `publishToGroupsPublicly(addresses, template, {anonymous})` from
commands.ts: the loop throws at the first address lacking the public-group
kind; only after every address passes is the event signed and published
once. -/
def publishToGroupsPublicly (env : PubEnv) (anonymous : Bool)
    (template : EventTemplate) (addresses : List String) :
    Except PubErr PublishCall × List PublishCall :=
  match addresses.find? (fun a => !(strStartsWith a "34550:")) with
  | some a => (Except.error (PubErr.invalidPublic a), [])
  | none =>
    let event := addATags template addresses
    let call := PublishCall.mk (PubEvent.signed event anonymous)
      (env.eventRelays event)
    (Except.ok call, [call])

/-- Result of `publishToZeroOrMoreGroups`: `{events, pubs}`. -/
structure OrchResult where
  events : List PubEvent
  pubs : List PublishCall
deriving DecidableEq

/-- `publishToZeroOrMoreGroups(addresses, template, {anonymous})` from
commands.ts: empty list → sign and publish once; otherwise partition by the
private-group kind, run the private branch first (awaited — an exception
propagates and the public branch never runs), then the public branch. -/
def publishToZeroOrMoreGroups (env : PubEnv) (anonymous : Bool)
    (template : EventTemplate) (addresses : List String) :
    Except PubErr OrchResult × List PublishCall :=
  if addresses.isEmpty then
    let event := PubEvent.signed template anonymous
    let call := PublishCall.mk event (env.eventRelays template)
    (Except.ok ⟨[event], [call]⟩, [call])
  else
    let wrapAddrs := addresses.filter (fun a => strStartsWith a "35834:")
    let nowrapAddrs := addresses.filter (fun a => !(strStartsWith a "35834:"))
    let priv :=
      if wrapAddrs.isEmpty then
        ((Except.ok ⟨[], []⟩ : Except PubErr PrivResult), ([] : List PublishCall))
      else publishToGroupsPrivately env anonymous template wrapAddrs
    match priv with
    | (Except.error e, trace) => (Except.error e, trace)
    | (Except.ok res, trace) =>
      if nowrapAddrs.isEmpty then
        (Except.ok ⟨res.events.map PubEvent.wrapped, res.pubs⟩, trace)
      else
        match publishToGroupsPublicly env anonymous template nowrapAddrs with
        | (Except.error e, trace2) => (Except.error e, trace ++ trace2)
        | (Except.ok call, trace2) =>
          (Except.ok ⟨res.events.map PubEvent.wrapped ++ [call.event],
                      res.pubs ++ [call]⟩, trace ++ trace2)

/-- Address validity for the private publish path: private-group kind and
access `Granted`. -/
def privAddressOk (env : PubEnv) (a : String) : Bool :=
  strStartsWith a "35834:" && deriveIsGroupMember env a

/-- The error `publishToGroupsPrivately` throws at an invalid address. -/
def privErrFor (a : String) : PubErr :=
  if strStartsWith a "35834:" = false then PubErr.invalidPrivate a
  else PubErr.notMember a

/-! ## Read receipts: `markAsSeen` -/

/-- hurdak's `chunk(n, xs)`: consecutive groups of `n`, last one shorter. -/
def chunksOf {α : Type} (n : Nat) : List α → List (List α)
  | [] => []
  | x :: xs => (x :: xs.take (n - 1)) :: chunksOf n (xs.drop (n - 1))
termination_by l => l.length
decreasing_by simp [List.length_drop]; omega

/-- `["expiration", String(now + seconds(90, "day"))]` (90 days =
7776000 seconds). -/
def expirationTag (now : Int) : List String :=
  ["expiration", toString (now + 7776000)]

/-- The kind-15 read-receipt marker created per chunk of ids. -/
def seenMarker (now : Int) (ids : List String) : EventTemplate :=
  ⟨15, expirationTag now :: ids.map (fun id => ["e", id]), ""⟩

/-- Environment read by `markAsSeen`: nip44 capability, the user's pubkey,
write relays, and the ephemeral wrap key. -/
structure SeenEnv where
  nip44Enabled : Bool
  userPubkey : String
  writeRelays : List String
  anonKey : String

/-- `markAsSeen(events)` from commands.ts, as a function of the store
contents it reads: the unpublished ids, the optimistic list, the ids of the
passed events (`pluck("id", events)`), and the clock.  Returns the new
optimistic list and the publish calls made. -/
def markAsSeen (env : SeenEnv) (signerEnabled : Bool)
    (unpublished optimistic eventIds : List String) (now : Int) :
    List String × List PublishCall :=
  if !signerEnabled || eventIds.isEmpty then (optimistic, [])
  else
    let allIds := unpublished ++ eventIds
    if allIds.length > 100 then
      let optimistic2 := if optimistic.length > 0 then [] else optimistic
      (optimistic2,
        (chunksOf 500 allIds).map (fun ids =>
          if env.nip44Enabled then
            PublishCall.mk
              (PubEvent.wrapped (nip59Wrap (seenMarker now ids) none
                ⟨some env.anonKey, some env.userPubkey, none, none,
                 [expirationTag now]⟩))
              env.writeRelays
          else
            PublishCall.mk (PubEvent.signed (seenMarker now ids) false)
              env.writeRelays))
    else (allIds, [])

/-- The kind-15 rumor carried by a read-receipt publish call. -/
def markerTemplate : PubEvent → EventTemplate
  | PubEvent.signed t _ => t
  | PubEvent.wrapped r => r.rumor

/-! ## Freshness-gated loader: `getStalePubkeys` / `loadPubkeyData` -/

/-- `/^[0-f]{64}$/`: exactly 64 characters, each in the ASCII range
`'0'..'f'` (codes 48–102 — note this range also contains `:`–`@`, the
uppercase letters and `[`–`` ` ``, not only lowercase hex digits). -/
def matchesHex (s : String) : Bool :=
  s.data.length = 64 && s.data.all (fun c => '0' ≤ c && c ≤ 'f')

/-- The spec's notion of the identity format: exactly 64 lowercase
hexadecimal digits.  Used only to contrast with `matchesHex`, the check the
code actually performs. -/
def isLowerHex (s : String) : Bool :=
  s.data.length = 64 &&
    s.data.all (fun c => ('0' ≤ c && c ≤ '9') || ('a' ≤ c && c ≤ 'f'))

/-- The loader's shared mutable state: the module-level `attempts` map
(`inc` of a missing entry is 1, so absent is 0) and the freshness store for
the fixed namespace key (`getFreshness`/`setFreshness` live in
src/engine/state, outside src/; here the store contents are an input). -/
structure StaleState where
  attempts : String → Int
  freshness : String → Int

/-- One iteration of the loop of `getStalePubkeys`: `thisAttempts` is
`inc(attempts.get(pubkey))` = stored count + 1, `thisDelta` is
`delta * thisAttempts`, and on inclusion the attempts map is updated. -/
def getStaleStep (now delta : Int) (acc : List String × StaleState)
    (pk : String) : List String × StaleState :=
  if matchesHex pk = false then acc
  else if acc.2.freshness pk < now - delta * (acc.2.attempts pk + 1) then
    ((if pk ∈ acc.1 then acc.1 else acc.1 ++ [pk]),
     StaleState.mk
       (fun q => if q = pk then acc.2.attempts pk + 1 else acc.2.attempts q)
       acc.2.freshness)
  else acc

/-- `getStalePubkeys(pubkeys, key, delta)` from the loader: the returned
list (`Array.from` of the insertion-ordered `Set`) and the updated attempts
state. -/
def getStalePubkeys (st : StaleState) (now : Int) (pubkeys : List String)
    (delta : Int) : List String × StaleState :=
  pubkeys.foldl (getStaleStep now delta) ([], st)

/-- The delta chosen by `loadPubkeyData`:
`force ? 5 : seconds(5, "minute")`. -/
def loadPubkeyDelta (force : Bool) : Int :=
  if force then 5 else 300

/-! ## Concrete sample values used by witnesses and counterexamples -/

/-- The empty record. -/
def recEmpty : Rec String :=
  ⟨fun _ => none, fun _ => none, none⟩

/-- A record with field `"f"` stamped `0` (falsy in JS) and a field stamp
(`"g"` at 100) above the record-level `updated_at` of 5. -/
def cexRec : Rec String :=
  ⟨fun g => if g = "f" then some "a" else none,
   fun g => if g = "f" then some 0 else if g = "g" then some 100 else none,
   some 5⟩

/-- A plain template. -/
def t0 : EventTemplate := ⟨1, [], "hello"⟩

/-- Sample wrap options without kind/algo overrides, as all call sites pass
them. -/
def w0 : WrapOpts := ⟨none, some "bob", none, none, []⟩

/-- Publish environment in which no group access is granted. -/
def env0 : PubEnv :=
  ⟨true, fun _ => GroupAccess.nullAccess, fun _ => "sk", fun _ => "pk",
   fun _ => ["wss://relay"], fun _ => ["wss://relay"], "anon"⟩

/-- Publish environment in which only `"35834:g"` is granted. -/
def env1 : PubEnv :=
  ⟨true, fun a => if a = "35834:g" then GroupAccess.granted
     else GroupAccess.nullAccess,
   fun _ => "sk", fun _ => "pk",
   fun _ => ["wss://relay"], fun _ => ["wss://relay"], "anon"⟩

/-- The single envelope produced for `"35834:g"` under `env1`. -/
def w1rumor : Rumor :=
  ⟨⟨1, [["a", "35834:g"]], "hello"⟩, none,
   ⟨some "sk", some "pk", none, none, []⟩⟩

/-- The publish call carrying `w1rumor`. -/
def w1call : PublishCall :=
  ⟨PubEvent.wrapped w1rumor, ["wss://relay"]⟩

/-- A read-receipt environment. -/
def seenEnv0 : SeenEnv := ⟨true, "me", ["wss://relay"], "anon"⟩

/-- 64 copies of `'Z'`: inside the `[0-f]` ASCII range, not lowercase hex. -/
def pkZ : String := String.mk (List.replicate 64 'Z')

/-- 64 copies of `'a'`: a well-formed lowercase-hex identity. -/
def pkA : String := String.mk (List.replicate 64 'a')

/-- Loader state: no attempts, everything last confirmed at time 0. -/
def stale0 : StaleState := ⟨fun _ => 0, fun _ => 0⟩

/-- Loader state: no attempts, everything last confirmed at time 700. -/
def stale700 : StaleState := ⟨fun _ => 0, fun _ => 700⟩

/-- Loader state: no attempts, everything last confirmed at time 1000. -/
def stale1000 : StaleState := ⟨fun _ => 0, fun _ => 1000⟩

/-! ## Helper lemmas -/

theorem chunksOf_length_le {α : Type} (n : Nat) (hn : 1 ≤ n) :
    ∀ (l : List α) (c : List α), c ∈ chunksOf n l → c.length ≤ n
  | [], c, hc => by simp [chunksOf] at hc
  | x :: xs, c, hc => by
    simp only [chunksOf, List.mem_cons] at hc
    rcases hc with h | h
    · subst h
      simp only [List.length_cons, List.length_take]
      omega
    · exact chunksOf_length_le n hn (xs.drop (n - 1)) c h
termination_by l => l.length
decreasing_by simp [List.length_drop]; omega

/-! ## C9: wrapWithFallback -/

/-- C9: `wrapWithFallback` returns exactly one envelope, whose cipher suite
(the legacy kind-1060/`algo: "nip04"` marker versus the modern form) is
fully determined by the signer's nip44 capability; the inner template is
carried unchanged.  The hypothesis records that call sites pass wrap
options without a kind override, as every caller in commands.ts does. -/
theorem claim9_wrap_fallback (e : Bool) (template : EventTemplate)
    (author : Option String) (w : WrapOpts) (hk : w.kind = none) :
    (wrapWithFallback e template author w).length = 1 ∧
    ∀ r ∈ wrapWithFallback e template author w,
      usesLegacySuite r = !e ∧ r.rumor = template := by
  cases e <;> simp [wrapWithFallback, nip59Wrap, usesLegacySuite, hk]

theorem claim9_witness :
    w0.kind = none ∧
    ((wrapWithFallback false t0 none w0).length = 1 ∧
      ∀ r ∈ wrapWithFallback false t0 none w0,
        usesLegacySuite r = !false ∧ r.rumor = t0) :=
  ⟨rfl, claim9_wrap_fallback false t0 none w0 rfl⟩

/-! ## C10: markAsSeen early return -/

/-- C10: with a disabled signer, or with an empty events list, `markAsSeen`
returns immediately: no event is created or published and the optimistic
read-receipt state is unchanged. -/
theorem claim10_mark_seen_noop (env : SeenEnv)
    (unpublished optimistic ids : List String) (now : Int) :
    markAsSeen env false unpublished optimistic ids now = (optimistic, []) ∧
    ∀ se : Bool, markAsSeen env se unpublished optimistic [] now
      = (optimistic, []) := by
  constructor
  · simp [markAsSeen]
  · intro se; cases se <;> simp [markAsSeen]

/-! ## C3: read-receipt batching -/

/-- C3 (amended): with an enabled signer and a non-empty events list, when
the total number of pending ids is at most 100 the ids are only recorded
optimistically and nothing is published; when the total is strictly above
100, the ids are chunked into groups of at most 500, exactly one kind-15
marker carrying the `now + 90 days` expiration tag is produced per chunk,
and the optimistic state is cleared.  (The claim as stated places the
boundary at "at or above 100"; the code's test is `allIds.length > 100`.) -/
theorem claim3_read_receipt_threshold (env : SeenEnv)
    (unpublished optimistic eventIds : List String) (now : Int)
    (hne : eventIds ≠ []) :
    ((unpublished ++ eventIds).length ≤ 100 →
      markAsSeen env true unpublished optimistic eventIds now
        = (unpublished ++ eventIds, [])) ∧
    ((unpublished ++ eventIds).length > 100 →
      (markAsSeen env true unpublished optimistic eventIds now).1 = [] ∧
      (markAsSeen env true unpublished optimistic eventIds now).2.length
        = (chunksOf 500 (unpublished ++ eventIds)).length ∧
      (∀ c ∈ chunksOf 500 (unpublished ++ eventIds), c.length ≤ 500) ∧
      (∀ p ∈ (markAsSeen env true unpublished optimistic eventIds now).2,
        (markerTemplate p.event).kind = 15 ∧
        expirationTag now ∈ (markerTemplate p.event).tags)) := by
  have hie : eventIds.isEmpty = false := by
    cases eventIds with
    | nil => exact absurd rfl hne
    | cons a l => rfl
  constructor
  · intro h100
    have hnot : ¬ (100 < unpublished.length + eventIds.length) := by
      simp only [List.length_append] at h100; omega
    simp [markAsSeen, hie, hnot]
  · intro h100
    have h100' : 100 < unpublished.length + eventIds.length := by
      simp only [List.length_append] at h100; omega
    refine ⟨?_, ?_, ?_, ?_⟩
    · simp only [markAsSeen, hie, Bool.not_true, Bool.false_or,
        Bool.false_eq_true, not_false_iff, if_neg, List.length_append,
        if_pos h100']
      split_ifs with ho
      · rfl
      · exact List.eq_nil_of_length_eq_zero (by omega)
    · simp [markAsSeen, hie, h100']
    · intro c hc
      exact chunksOf_length_le 500 (by omega) _ c hc
    · intro p hp
      simp only [markAsSeen, hie, Bool.not_true, Bool.false_or,
        Bool.false_eq_true, not_false_iff, if_neg, List.length_append,
        if_pos h100', List.mem_map] at hp
      obtain ⟨ids, _, rfl⟩ := hp
      cases henv : env.nip44Enabled <;>
        simp [henv, markerTemplate, seenMarker, nip59Wrap]

/-- C3 counterexample: with exactly 100 pending ids (an enabled signer, no
previously unpublished ids, 100 freshly passed ids) the claim as stated
("at or above 100" produces one marker event per chunk) predicts one
published marker; the code keeps all ids optimistic and publishes
nothing. -/
theorem claim3_counterexample :
    markAsSeen seenEnv0 true [] [] (List.replicate 100 "a") 0
      = (List.replicate 100 "a", []) := by
  decide

theorem claim3_witness :
    (["a"] : List String) ≠ [] ∧ (([] : List String) ++ ["a"]).length ≤ 100 ∧
    markAsSeen seenEnv0 true [] [] ["a"] 0 = (([] : List String) ++ ["a"], []) :=
  ⟨by decide, by decide,
   (claim3_read_receipt_threshold seenEnv0 [] [] ["a"] 0 (by decide)).1
     (by decide)⟩

/-! ## C4, C5: stale-selection -/

/-- An identity failing the `[0-f]{64}` check is skipped by every loop
iteration: it can never enter the result set. -/
theorem getStale_not_hex_aux (now delta : Int) (pk : String)
    (hpk : matchesHex pk = false) :
    ∀ (l : List String) (acc : List String × StaleState),
      pk ∉ acc.1 → pk ∉ (l.foldl (getStaleStep now delta) acc).1
  | [], _, h => h
  | q :: l, acc, h => by
    apply getStale_not_hex_aux now delta pk hpk l
    unfold getStaleStep
    split_ifs with hA hB hC
    · exact h
    · exact h
    · have hne : pk ≠ q := by
        intro he; subst he; exact hA hpk
      simp only [List.mem_append, List.mem_singleton]
      rintro (hin | rfl)
      · exact h hin
      · exact hne rfl
    · exact h

/-- Iterations for identities other than `pk` neither add `pk` to the
result nor touch its attempt count, and never write freshness. -/
theorem getStale_frame (now delta : Int) (pk : String) :
    ∀ (l : List String) (acc : List String × StaleState), pk ∉ l →
      ((pk ∈ (l.foldl (getStaleStep now delta) acc).1 ↔ pk ∈ acc.1) ∧
       (l.foldl (getStaleStep now delta) acc).2.attempts pk
         = acc.2.attempts pk ∧
       (l.foldl (getStaleStep now delta) acc).2.freshness = acc.2.freshness)
  | [], _, _ => ⟨Iff.rfl, rfl, rfl⟩
  | q :: l, acc, h => by
    obtain ⟨h1, h2⟩ : pk ≠ q ∧ pk ∉ l := by
      simpa [List.mem_cons, not_or] using h
    have hstep :
        (pk ∈ (getStaleStep now delta acc q).1 ↔ pk ∈ acc.1) ∧
        (getStaleStep now delta acc q).2.attempts pk = acc.2.attempts pk ∧
        (getStaleStep now delta acc q).2.freshness = acc.2.freshness := by
      unfold getStaleStep
      split_ifs with hA hB hC
      · exact ⟨Iff.rfl, rfl, rfl⟩
      · refine ⟨Iff.rfl, ?_, rfl⟩
        simp [h1]
      · refine ⟨?_, ?_, rfl⟩
        · simp [List.mem_append, h1]
        · simp [h1]
      · exact ⟨Iff.rfl, rfl, rfl⟩
    have hrec := getStale_frame now delta pk l (getStaleStep now delta acc q) h2
    rw [List.foldl_cons]
    exact ⟨hrec.1.trans hstep.1, hrec.2.1.trans hstep.2.1,
      hrec.2.2.trans hstep.2.2⟩

/-- The iteration that processes `pk` itself: inclusion happens exactly when
the stored freshness is strictly below `now - delta * (attempts + 1)`, and
the attempt count is bumped exactly on inclusion. -/
theorem getStaleStep_self (now delta : Int) (acc : List String × StaleState)
    (pk : String) (hhex : matchesHex pk = true) (hnotin : pk ∉ acc.1) :
    (pk ∈ (getStaleStep now delta acc pk).1 ↔
      acc.2.freshness pk < now - delta * (acc.2.attempts pk + 1)) ∧
    ((getStaleStep now delta acc pk).2.attempts pk =
      if acc.2.freshness pk < now - delta * (acc.2.attempts pk + 1)
      then acc.2.attempts pk + 1 else acc.2.attempts pk) ∧
    (getStaleStep now delta acc pk).2.freshness = acc.2.freshness := by
  unfold getStaleStep
  have hA : ¬ (matchesHex pk = false) := by simp [hhex]
  rw [if_neg hA]
  by_cases hB : acc.2.freshness pk < now - delta * (acc.2.attempts pk + 1)
  · rw [if_pos hB, if_neg hnotin]
    refine ⟨?_, ?_, rfl⟩
    · simp [List.mem_append, hB]
    · simp [hB]
  · rw [if_neg hB]
    refine ⟨?_, ?_, rfl⟩
    · constructor
      · intro hin; exact absurd hin hnotin
      · intro hcond; exact absurd hcond hB
    · simp [hB]

/-- C4 (amended): for every well-formed identity in a duplicate-free input
list, the effective delta is `delta * (1 + attempts)`, the identity is
included exactly when `now - freshness` is STRICTLY greater than the
effective delta (the code's test is `freshness < now - thisDelta`; the
claim's "≥" fails at equality), and the attempt count is incremented
exactly on inclusion; with `delta = 300` and three prior stale cycles the
gap required for re-selection is at least 1200. -/
theorem claim4_stale_backoff (st : StaleState) (now delta : Int)
    (pubkeys : List String) (hnd : pubkeys.Nodup) (pk : String)
    (hmem : pk ∈ pubkeys) (hhex : matchesHex pk = true) :
    (pk ∈ (getStalePubkeys st now pubkeys delta).1 ↔
      st.freshness pk < now - delta * (st.attempts pk + 1)) ∧
    ((getStalePubkeys st now pubkeys delta).2.attempts pk =
      if st.freshness pk < now - delta * (st.attempts pk + 1)
      then st.attempts pk + 1 else st.attempts pk) ∧
    (delta = 300 → st.attempts pk = 3 →
      pk ∈ (getStalePubkeys st now pubkeys delta).1 →
      now - st.freshness pk ≥ 1200) := by
  obtain ⟨l1, l2, rfl⟩ := List.append_of_mem hmem
  obtain ⟨hn1, hn2, hdisj⟩ := List.nodup_append.mp hnd
  have hnotin1 : pk ∉ l1 := fun hin => hdisj hin (List.mem_cons_self pk l2)
  have hnotin2 : pk ∉ l2 := (List.nodup_cons.mp hn2).1
  unfold getStalePubkeys
  rw [List.foldl_append, List.foldl_cons]
  have hfr1 := getStale_frame now delta pk l1 ([], st) hnotin1
  have hne1 : pk ∉ (l1.foldl (getStaleStep now delta) ([], st)).1 := by
    rw [hfr1.1]; exact List.not_mem_nil pk
  have hstep := getStaleStep_self now delta
    (l1.foldl (getStaleStep now delta) ([], st)) pk hhex hne1
  have hfr2 := getStale_frame now delta pk l2
    (getStaleStep now delta (l1.foldl (getStaleStep now delta) ([], st)) pk)
    hnotin2
  have hfs : (l1.foldl (getStaleStep now delta) ([], st)).2.freshness pk
      = st.freshness pk := by rw [hfr1.2.2]
  have hat : (l1.foldl (getStaleStep now delta) ([], st)).2.attempts pk
      = st.attempts pk := hfr1.2.1
  have hiff : pk ∈ (l2.foldl (getStaleStep now delta)
        (getStaleStep now delta
          (l1.foldl (getStaleStep now delta) ([], st)) pk)).1 ↔
      st.freshness pk < now - delta * (st.attempts pk + 1) := by
    rw [hfr2.1, hstep.1, hfs, hat]
  refine ⟨hiff, ?_, ?_⟩
  · rw [hfr2.2.1, hstep.2.1, hfs, hat]
  · intro h300 hatt hin
    have := hiff.mp hin
    rw [h300, hatt] at this
    omega

/-- C4 counterexample: for the well-formed identity `pkA` with
`now - freshness = 300 = 300 * (1 + attempts)` the claim as stated
("included exactly when now - freshness ≥ effectiveDelta") predicts
inclusion; the code's strict test excludes it. -/
theorem claim4_counterexample :
    matchesHex pkA = true ∧
    (1000 : Int) - stale700.freshness pkA = 300 * (1 + stale700.attempts pkA) ∧
    (getStalePubkeys stale700 1000 [pkA] 300).1 = [] :=
  ⟨by decide, by decide, by decide⟩

theorem claim4_witness :
    ([pkA] : List String).Nodup ∧ pkA ∈ [pkA] ∧ matchesHex pkA = true ∧
    (pkA ∈ (getStalePubkeys stale0 1000 [pkA] 300).1 ↔
      stale0.freshness pkA < 1000 - 300 * (stale0.attempts pkA + 1)) :=
  ⟨by decide, by decide, by decide,
   (claim4_stale_backoff stale0 1000 300 [pkA] (by decide) pkA (by decide)
     (by decide)).1⟩

/-- C5 (amended): an identity failing the code's `[0-f]{64}` check is never
included in a stale set, regardless of timestamps, attempts or force mode;
but the check is the ASCII range `'0'..'f'` (wider than lowercase hex), and
force mode does not bypass the freshness check — it only shortens the base
delta to 5 seconds, so a well-formed identity confirmed fresh within the
effective delta is still excluded. -/
theorem claim5_hex_and_force :
    (∀ (st : StaleState) (now : Int) (pubkeys : List String) (delta : Int)
        (pk : String), matchesHex pk = false →
        pk ∉ (getStalePubkeys st now pubkeys delta).1) ∧
    (∀ (st : StaleState) (now : Int) (pk : String), matchesHex pk = true →
        ¬ (st.freshness pk < now - loadPubkeyDelta true * (st.attempts pk + 1)) →
        pk ∉ (getStalePubkeys st now [pk] (loadPubkeyDelta true)).1) := by
  constructor
  · intro st now pubkeys delta pk hpk
    exact getStale_not_hex_aux now delta pk hpk pubkeys ([], st)
      (List.not_mem_nil pk)
  · intro st now pk hhex hcond
    simp [getStalePubkeys, getStaleStep, hhex, hcond]

/-- C5 counterexample: `pkZ` (64 copies of `'Z'`) is not lowercase hex, yet
the code's `[0-f]` range accepts it and selects it as stale; and the
well-formed `pkA`, confirmed fresh at `now` itself, is NOT selected even in
force mode (force shrinks the delta to 5 seconds instead of bypassing the
freshness check). -/
theorem claim5_counterexample :
    isLowerHex pkZ = false ∧
    (getStalePubkeys stale0 1000 [pkZ] (loadPubkeyDelta true)).1 = [pkZ] ∧
    (getStalePubkeys stale1000 1000 [pkA] (loadPubkeyDelta true)).1 = [] :=
  ⟨by decide, by decide, by decide⟩

theorem claim5_witness :
    matchesHex "zz" = false ∧
    "zz" ∉ (getStalePubkeys stale0 0 ["zz"] 0).1 :=
  ⟨by decide, claim5_hex_and_force.1 stale0 0 ["zz"] 0 "zz" (by decide)⟩

/-! ## LWW record merge: basic lemmas -/

theorem coerceUA_some (t : Int) : coerceUA (some t) = t := by
  simp only [coerceUA]
  split <;> omega

theorem Rec.ext2 {V : Type} {r1 r2 : Rec V}
    (hv : ∀ g, r1.value g = r2.value g) (ht : ∀ g, r1.ts g = r2.ts g)
    (hu : r1.updated_at = r2.updated_at) : r1 = r2 := by
  cases r1; cases r2
  simp only [Rec.mk.injEq]
  exact ⟨funext hv, funext ht, hu⟩

theorem setField_value_self {V : Type} (r : Rec V) (f : Field) (v : V)
    (t : Int) : (setField r f v t).value f = some v := by simp [setField]

theorem setField_ts_self {V : Type} (r : Rec V) (f : Field) (v : V)
    (t : Int) : (setField r f v t).ts f = some t := by simp [setField]

theorem setField_value_other {V : Type} (r : Rec V) (f g : Field) (v : V)
    (t : Int) (h : g ≠ f) : (setField r f v t).value g = r.value g := by
  simp [setField, h]

theorem setField_ts_other {V : Type} (r : Rec V) (f g : Field) (v : V)
    (t : Int) (h : g ≠ f) : (setField r f v t).ts g = r.ts g := by
  simp [setField, h]

theorem applyField_pos {V : Type} (r : Rec V) (t : Int) (f : Field) (v : V)
    (h : t > coerceTs (r.ts f)) : applyField r t f v = setField r f v t := by
  unfold applyField; rw [if_pos h]

theorem applyField_neg {V : Type} (r : Rec V) (t : Int) (f : Field) (v : V)
    (h : ¬ t > coerceTs (r.ts f)) : applyField r t f v = r := by
  unfold applyField; rw [if_neg h]

/-- Re-setting the same field absorbs the earlier write when the earlier
timestamp is dominated. -/
theorem setField_absorb {V : Type} (r : Rec V) (f : Field) (v1 v2 : V)
    (t1 t2 : Int) (h : t1 ≤ max t2 (coerceUA r.updated_at)) :
    setField (setField r f v1 t1) f v2 t2 = setField r f v2 t2 := by
  apply Rec.ext2
  · intro g; by_cases hg : g = f <;> simp [setField, hg]
  · intro g; by_cases hg : g = f <;> simp [setField, hg]
  · simp only [setField, coerceUA_some]
    congr 1
    omega

/-- Writes to distinct fields commute. -/
theorem setField_swap {V : Type} (r : Rec V) (f1 f2 : Field) (v1 v2 : V)
    (t1 t2 : Int) (hf : f1 ≠ f2) :
    setField (setField r f1 v1 t1) f2 v2 t2
      = setField (setField r f2 v2 t2) f1 v1 t1 := by
  have hf' : f2 ≠ f1 := Ne.symm hf
  apply Rec.ext2
  · intro g
    by_cases hg2 : g = f2
    · subst hg2; simp [setField, hf']
    · by_cases hg1 : g = f1 <;> simp [setField, hg1, hg2, hf]
  · intro g
    by_cases hg2 : g = f2
    · subst hg2; simp [setField, hf']
    · by_cases hg1 : g = f1 <;> simp [setField, hg1, hg2, hf]
  · simp only [setField, coerceUA_some]
    congr 1
    omega

/-- Two loop iterations with distinct timestamps commute (the heart of
order-independence; with equal timestamps they do not, which is why the
final theorem assumes pairwise distinct stamps). -/
theorem applyField_comm {V : Type} (r : Rec V) (t1 t2 : Int) (f1 f2 : Field)
    (v1 v2 : V) (hne : t1 ≠ t2) :
    applyField (applyField r t1 f1 v1) t2 f2 v2
      = applyField (applyField r t2 f2 v2) t1 f1 v1 := by
  by_cases hf : f1 = f2
  · subst hf
    by_cases h1 : t1 > coerceTs (r.ts f1) <;>
      by_cases h2 : t2 > coerceTs (r.ts f1)
    · simp only [applyField]
      rw [if_pos h1, if_pos h2, setField_ts_self, setField_ts_self]
      by_cases h12 : t2 > coerceTs (some t1) <;>
        by_cases h21 : t1 > coerceTs (some t2)
      · exfalso
        simp only [coerceTs] at h12 h21
        split_ifs at h12 h21 <;> omega
      · rw [if_pos h12, if_neg h21]
        apply setField_absorb
        have ht : t1 ≤ t2 := by
          simp only [coerceTs] at h12 h21
          split_ifs at h12 h21 <;> omega
        exact le_trans ht (le_max_left _ _)
      · rw [if_neg h12, if_pos h21]
        symm
        apply setField_absorb
        have ht : t2 ≤ t1 := by
          simp only [coerceTs] at h12 h21
          split_ifs at h12 h21 <;> omega
        exact le_trans ht (le_max_left _ _)
      · exfalso
        simp only [coerceTs] at h12 h21
        split_ifs at h12 h21 <;> omega
    · simp only [applyField]
      rw [if_pos h1, if_neg h2, setField_ts_self]
      have hno : ¬ (t2 > coerceTs (some t1)) := by
        simp only [coerceTs]
        split_ifs <;> omega
      rw [if_neg hno, if_pos h1]
    · simp only [applyField]
      rw [if_neg h1, if_pos h2, setField_ts_self]
      have hno : ¬ (t1 > coerceTs (some t2)) := by
        simp only [coerceTs]
        split_ifs <;> omega
      rw [if_neg hno]
    · simp only [applyField]
      rw [if_neg h1, if_neg h2, if_neg h1]
  · have hf' : f2 ≠ f1 := Ne.symm hf
    by_cases h1 : t1 > coerceTs (r.ts f1) <;>
      by_cases h2 : t2 > coerceTs (r.ts f2)
    · simp only [applyField]
      rw [if_pos h1, if_pos h2, setField_ts_other r f1 f2 v1 t1 hf',
        setField_ts_other r f2 f1 v2 t2 hf, if_pos h2, if_pos h1]
      exact setField_swap r f1 f2 v1 v2 t1 t2 hf
    · simp only [applyField]
      rw [if_pos h1, if_neg h2, setField_ts_other r f1 f2 v1 t1 hf',
        if_neg h2, if_pos h1]
    · simp only [applyField]
      rw [if_neg h1, if_pos h2, setField_ts_other r f2 f1 v2 t2 hf,
        if_neg h1]
    · simp only [applyField]
      rw [if_neg h1, if_neg h2, if_neg h1]

/-- A loop iteration with a fresh timestamp commutes past a whole merge. -/
theorem updateRecord_applyField_comm {V : Type} (t1 t2 : Int)
    (hne : t1 ≠ t2) (f : Field) (v : V) :
    ∀ (us : List (Field × V)) (r : Rec V),
      updateRecord (applyField r t1 f v) t2 us
        = applyField (updateRecord r t2 us) t1 f v
  | [], _ => rfl
  | (g, w) :: rest, r => by
    simp only [updateRecord]
    rw [applyField_comm r t1 t2 f g v w hne]
    exact updateRecord_applyField_comm t1 t2 hne f v rest (applyField r t2 g w)

/-- Whole merges with distinct timestamps commute. -/
theorem updateRecord_comm {V : Type} (t1 t2 : Int) (hne : t1 ≠ t2) :
    ∀ (us1 us2 : List (Field × V)) (r : Rec V),
      updateRecord (updateRecord r t1 us1) t2 us2
        = updateRecord (updateRecord r t2 us2) t1 us1
  | [], _, _ => rfl
  | (f, v) :: rest, us2, r => by
    simp only [updateRecord]
    rw [updateRecord_comm t1 t2 hne rest us2 (applyField r t1 f v),
      updateRecord_applyField_comm t1 t2 hne f v us2 r]

theorem applyOps_append {V : Type} :
    ∀ (xs ys : List (Int × List (Field × V))) (r : Rec V),
      applyOps r (xs ++ ys) = applyOps (applyOps r xs) ys
  | [], _, _ => rfl
  | (t, us) :: xs, ys, r => by
    simp only [List.cons_append, applyOps]
    exact applyOps_append xs ys (updateRecord r t us)

/-- A merge whose timestamp differs from every later operation's timestamp
commutes past all of them. -/
theorem updateRecord_applyOps_comm {V : Type} (t : Int)
    (us : List (Field × V)) :
    ∀ (ops : List (Int × List (Field × V))) (r : Rec V),
      (∀ o ∈ ops, o.1 ≠ t) →
      applyOps (updateRecord r t us) ops
        = updateRecord (applyOps r ops) t us
  | [], _, _ => rfl
  | (t2, us2) :: ops, r, h => by
    simp only [applyOps]
    rw [updateRecord_comm t t2
      (fun he => h (t2, us2) (List.mem_cons_self _ _) he.symm) us us2 r]
    exact updateRecord_applyOps_comm t us ops (updateRecord r t2 us2)
      (fun o ho => h o (List.mem_cons_of_mem _ ho))

/-! ## C6: order independence -/

/-- C6: applying a finite set of `(timestamp, updates)` merge operations
through `updateRecord` yields the same final record in list order and in
the reversed order, whenever the timestamps are pairwise distinct (which
"applied in timestamp order" presupposes — with a tie the timestamp order
itself is ambiguous and the last write of the tied pair wins). -/
theorem claim6_lww_order_independent {V : Type} (r : Rec V)
    (ops : List (Int × List (Field × V)))
    (hd : ops.Pairwise (fun o1 o2 => o1.1 ≠ o2.1)) :
    applyOps r ops = applyOps r ops.reverse := by
  induction ops generalizing r with
  | nil => rfl
  | cons o rest IH =>
    obtain ⟨t, us⟩ := o
    obtain ⟨hhead, htail⟩ := List.pairwise_cons.mp hd
    simp only [applyOps, List.reverse_cons]
    rw [applyOps_append, ← IH r htail]
    simp only [applyOps]
    exact updateRecord_applyOps_comm t us rest r
      (fun o ho => (hhead o ho).symm)

theorem claim6_witness :
    (([((5 : Int), [("f", ("a" : String))]), (10, [("f", "b")])]).Pairwise
      (fun o1 o2 => o1.1 ≠ o2.1)) ∧
    applyOps recEmpty [((5 : Int), [("f", ("a" : String))]), (10, [("f", "b")])]
      = applyOps recEmpty
          ([((5 : Int), [("f", ("a" : String))]), (10, [("f", "b")])]).reverse :=
  ⟨by decide,
   claim6_lww_order_independent recEmpty
     [((5 : Int), [("f", ("a" : String))]), (10, [("f", "b")])] (by decide)⟩

/-! ## C7, C8: merge characterization and idempotence -/

/-- Fields not named in `updates` keep their value and stamp. -/
theorem updateRecord_frame {V : Type} (t : Int) (f : Field) :
    ∀ (us : List (Field × V)) (r : Rec V), f ∉ us.map Prod.fst →
      (updateRecord r t us).value f = r.value f ∧
      (updateRecord r t us).ts f = r.ts f
  | [], _, _ => ⟨rfl, rfl⟩
  | (g, w) :: rest, r, h => by
    obtain ⟨h1, h2⟩ : f ≠ g ∧ f ∉ rest.map Prod.fst := by
      simpa [not_or] using h
    have hv : (applyField r t g w).value f = r.value f := by
      unfold applyField; split
      · exact setField_value_other r g f w t h1
      · rfl
    have hts : (applyField r t g w).ts f = r.ts f := by
      unfold applyField; split
      · exact setField_ts_other r g f w t h1
      · rfl
    have IH := updateRecord_frame t f rest (applyField r t g w) h2
    exact ⟨IH.1.trans hv, IH.2.trans hts⟩

/-- A merge either leaves `updated_at` alone or sets it to a value at least
the incoming timestamp. -/
theorem updateRecord_ua_cases {V : Type} (t : Int) :
    ∀ (us : List (Field × V)) (r : Rec V),
      (updateRecord r t us).updated_at = r.updated_at ∨
      ∃ x, (updateRecord r t us).updated_at = some x ∧ t ≤ x
  | [], _ => Or.inl rfl
  | (g, w) :: rest, r => by
    simp only [updateRecord]
    rcases updateRecord_ua_cases t rest (applyField r t g w)
      with h | ⟨x, hx, htx⟩
    · rw [h]
      unfold applyField
      split
      · exact Or.inr ⟨max t (coerceUA r.updated_at), rfl, le_max_left _ _⟩
      · exact Or.inl rfl
    · exact Or.inr ⟨x, hx, htx⟩

/-- C8: applying `updateRecord` twice with the same `(timestamp, updates)`
yields exactly the record of applying it once.  The `Nodup` hypothesis
records that `updates` is a JS object: its keys are unique. -/
theorem claim8_lww_idempotent {V : Type} :
    ∀ (us : List (Field × V)) (r : Rec V) (t : Int),
      (us.map Prod.fst).Nodup →
      updateRecord (updateRecord r t us) t us = updateRecord r t us
  | [], _, _, _ => rfl
  | (f, v) :: rest, r, t, h => by
    have h' : (f :: rest.map Prod.fst).Nodup := by simpa using h
    obtain ⟨hf, hrest⟩ := List.nodup_cons.mp h'
    simp only [updateRecord]
    have hkey : applyField (updateRecord (applyField r t f v) t rest) t f v
        = updateRecord (applyField r t f v) t rest := by
      by_cases hc : t > coerceTs (r.ts f)
      · have hset : applyField r t f v = setField r f v t := by
          unfold applyField; rw [if_pos hc]
        have hfr := updateRecord_frame t f rest (applyField r t f v) hf
        have hAts : (updateRecord (applyField r t f v) t rest).ts f
            = some t := by
          rw [hfr.2, hset, setField_ts_self]
        have hAv : (updateRecord (applyField r t f v) t rest).value f
            = some v := by
          rw [hfr.1, hset, setField_value_self]
        by_cases ht0 : t = 0
        · subst ht0
          have hcond : (0 : Int) > coerceTs
              ((updateRecord (applyField r 0 f v) 0 rest).ts f) := by
            rw [hAts]; simp [coerceTs]
          obtain ⟨x, hx, hx0⟩ : ∃ x,
              (updateRecord (applyField r 0 f v) 0 rest).updated_at = some x
              ∧ 0 ≤ x := by
            rcases updateRecord_ua_cases 0 rest (applyField r 0 f v)
              with hu | ⟨x, hx, hx0⟩
            · refine ⟨max 0 (coerceUA r.updated_at), ?_, le_max_left _ _⟩
              rw [hu, hset]; rfl
            · exact ⟨x, hx, hx0⟩
          rw [applyField_pos _ _ _ _ hcond]
          apply Rec.ext2
          · intro g
            by_cases hg : g = f
            · subst hg; rw [setField_value_self, hAv]
            · exact setField_value_other _ f g v 0 hg
          · intro g
            by_cases hg : g = f
            · subst hg; rw [setField_ts_self, hAts]
            · exact setField_ts_other _ f g v 0 hg
          · simp only [setField]
            rw [hx, coerceUA_some, max_eq_right hx0]
        · have hcond : ¬ ((t : Int) > coerceTs
              ((updateRecord (applyField r t f v) t rest).ts f)) := by
            rw [hAts]
            simp only [coerceTs, if_neg ht0]
            omega
          rw [applyField_neg _ _ _ _ hcond]
      · have hset : applyField r t f v = r := applyField_neg r t f v hc
        have hcond : ¬ (t > coerceTs
            ((updateRecord (applyField r t f v) t rest).ts f)) := by
          rw [(updateRecord_frame t f rest (applyField r t f v) hf).2, hset]
          exact hc
        rw [applyField_neg _ _ _ _ hcond]
    rw [hkey]
    exact claim8_lww_idempotent rest (applyField r t f v) t hrest

theorem claim8_witness :
    (([("f", ("a" : String))].map Prod.fst).Nodup) ∧
    updateRecord (updateRecord recEmpty 5 [("f", "a")]) 5 [("f", "a")]
      = updateRecord recEmpty 5 [("f", "a")] :=
  ⟨by decide, claim8_lww_idempotent [("f", "a")] recEmpty 5 (by decide)⟩

theorem anyCongr {α : Type} : ∀ (l : List α) (p q : α → Bool),
    (∀ a ∈ l, p a = q a) → l.any p = l.any q
  | [], _, _, _ => rfl
  | a :: l, p, q, h => by
    simp only [List.any_cons]
    rw [h a (List.mem_cons_self a l),
      anyCongr l p q (fun b hb => h b (List.mem_cons_of_mem a hb))]

/-- The full characterization of one merge (unique keys): a field named in
`updates` is overwritten exactly when the incoming timestamp beats the
coerced stored stamp; `updated_at` becomes `max(timestamp, prior-or-0)`
when any field is overwritten and is untouched otherwise. -/
theorem updateRecord_char {V : Type} :
    ∀ (us : List (Field × V)) (r : Rec V) (t : Int),
      (us.map Prod.fst).Nodup →
      (∀ f v, (f, v) ∈ us →
        (t > coerceTs (r.ts f) →
          (updateRecord r t us).value f = some v ∧
          (updateRecord r t us).ts f = some t) ∧
        (¬ t > coerceTs (r.ts f) →
          (updateRecord r t us).value f = r.value f ∧
          (updateRecord r t us).ts f = r.ts f)) ∧
      ((updateRecord r t us).updated_at =
        if us.any (fun p => decide (t > coerceTs (r.ts p.1)))
        then some (max t (coerceUA r.updated_at)) else r.updated_at)
  | [], r, t, _ => by
    constructor
    · intro f v hv; cases hv
    · simp [updateRecord]
  | (g, w) :: rest, r, t, h => by
    have h' : (g :: rest.map Prod.fst).Nodup := by simpa using h
    obtain ⟨hg, hrest⟩ := List.nodup_cons.mp h'
    by_cases hc : t > coerceTs (r.ts g)
    · have hset : applyField r t g w = setField r g w t := by
        unfold applyField; rw [if_pos hc]
      have hIH := updateRecord_char rest (setField r g w t) t hrest
      constructor
      · intro f v hv
        rcases List.mem_cons.mp hv with he | hmem
        · obtain ⟨rfl, rfl⟩ := Prod.mk.inj he
          have hfr := updateRecord_frame t f rest (applyField r t f v) hg
          constructor
          · intro _
            simp only [updateRecord]
            constructor
            · rw [hfr.1, hset, setField_value_self]
            · rw [hfr.2, hset, setField_ts_self]
          · intro hnc; exact absurd hc hnc
        · have hfne : f ≠ g := fun he2 =>
            hg (he2 ▸ List.mem_map_of_mem Prod.fst hmem)
          have hts : (setField r g w t).ts f = r.ts f :=
            setField_ts_other r g f w t hfne
          have hvv : (setField r g w t).value f = r.value f :=
            setField_value_other r g f w t hfne
          have hh := hIH.1 f v hmem
          rw [hts, hvv] at hh
          simp only [updateRecord]
          rw [hset]
          exact hh
      · have hany : rest.any
              (fun p => decide (t > coerceTs ((setField r g w t).ts p.1)))
            = rest.any (fun p => decide (t > coerceTs (r.ts p.1))) := by
          apply anyCongr
          intro p hp
          have hne : p.1 ≠ g := fun he =>
            hg (he ▸ List.mem_map_of_mem Prod.fst hp)
          rw [setField_ts_other r g p.1 w t hne]
        have hdec : decide (t > coerceTs (r.ts g)) = true := decide_eq_true hc
        have hua : (setField r g w t).updated_at
            = some (max t (coerceUA r.updated_at)) := rfl
        have hcollapse : max t (max t (coerceUA r.updated_at))
            = max t (coerceUA r.updated_at) := by
          rw [← max_assoc, max_self]
        simp only [updateRecord, List.any_cons]
        rw [hset, hIH.2]
        simp only [hany, hua, coerceUA_some, hdec, Bool.true_or]
        split_ifs <;> simp [hcollapse]
    · have hset : applyField r t g w = r := by
        unfold applyField; rw [if_neg hc]
      have hIH := updateRecord_char rest r t hrest
      constructor
      · intro f v hv
        rcases List.mem_cons.mp hv with he | hmem
        · obtain ⟨rfl, rfl⟩ := Prod.mk.inj he
          constructor
          · intro hcc; exact absurd hcc hc
          · intro _
            simp only [updateRecord]
            rw [hset]
            exact ⟨(updateRecord_frame t f rest r hg).1,
              (updateRecord_frame t f rest r hg).2⟩
        · have hh := hIH.1 f v hmem
          simp only [updateRecord]
          rw [hset]
          exact hh
      · have hdec : decide (t > coerceTs (r.ts g)) = false :=
          decide_eq_false hc
        simp only [updateRecord, List.any_cons]
        rw [hset]
        simp only [hdec, Bool.false_or]
        exact hIH.2

/-- C7 (amended): `updateRecord` overwrites a field's value and stamp
exactly when the incoming timestamp is strictly greater than the stored
stamp READ THROUGH JS truthiness — an absent or zero stored stamp counts
as -1 — and discards the field's update silently otherwise; after the
merge, `updated_at` equals `max(timestamp, previous updated_at or 0)` if
any field was overwritten and is unchanged otherwise; in particular it is
monotonically non-decreasing across every merge.  (The claim as stated
reads the stored stamp literally with a -infinity default, and equates the
new `updated_at` with the clamped max of all field stamps; both fail on
the code, see the counterexample.) -/
theorem claim7_lww_overwrite {V : Type} (r : Rec V) (t : Int)
    (us : List (Field × V)) (hnd : (us.map Prod.fst).Nodup) :
    (∀ f v, (f, v) ∈ us →
      (t > coerceTs (r.ts f) →
        (updateRecord r t us).value f = some v ∧
        (updateRecord r t us).ts f = some t) ∧
      (¬ t > coerceTs (r.ts f) →
        (updateRecord r t us).value f = r.value f ∧
        (updateRecord r t us).ts f = r.ts f)) ∧
    ((updateRecord r t us).updated_at =
      if us.any (fun p => decide (t > coerceTs (r.ts p.1)))
      then some (max t (coerceUA r.updated_at)) else r.updated_at) ∧
    uaLe r.updated_at (updateRecord r t us).updated_at := by
  obtain ⟨h1, h2⟩ := updateRecord_char us r t hnd
  refine ⟨h1, h2, ?_⟩
  rw [h2]
  split_ifs
  · cases hru : r.updated_at with
    | none => simp [uaLe]
    | some u =>
      simp only [uaLe, coerceUA_some]
      exact le_max_right t u
  · cases r.updated_at with
    | none => simp [uaLe]
    | some u => simp [uaLe]

/-- C7 counterexample: `cexRec` stores field `"f"` with stamp 0,
`"g"` with stamp 100, and `updated_at = 5`.  Merging `{f: "b"}` at
timestamp 0: the claim as stated predicts the update is discarded (0 is
not strictly greater than the stored 0) and that `updated_at` becomes the
clamped max of all field stamps (100); the code overwrites `"f"` (a falsy
stored stamp reads as -1) and sets `updated_at` to `max(0, 5) = 5`. -/
theorem claim7_counterexample :
    (updateRecord cexRec 0 [("f", "b")]).value "f" = some "b" ∧
    (updateRecord cexRec 0 [("f", "b")]).ts "f" = some 0 ∧
    (updateRecord cexRec 0 [("f", "b")]).updated_at = some 5 :=
  ⟨by decide, by decide, by decide⟩

theorem claim7_witness :
    (([("f", ("x" : String))].map Prod.fst).Nodup) ∧
    ((updateRecord recEmpty 7 [("f", "x")]).updated_at =
      if [("f", ("x" : String))].any
          (fun p => decide ((7 : Int) > coerceTs (recEmpty.ts p.1)))
      then some (max 7 (coerceUA recEmpty.updated_at))
      else recEmpty.updated_at) :=
  ⟨by decide, (claim7_lww_overwrite recEmpty 7 [("f", "x")] (by decide)).2.1⟩

/-! ## C1, C2: publish routing -/

/-- Exactly one envelope is dispatched per private address. -/
theorem privCalls_length (env : PubEnv) (anonymous : Bool)
    (template : EventTemplate) (address : String) :
    (privCalls env anonymous template address).length = 1 := by
  cases h : env.nip44Enabled <;>
    simp [privCalls, privRumors, wrapWithFallback, h]

/-- Unfolding one valid iteration of `publishToGroupsPrivately`. -/
theorem publishPrivately_cons_ok (env : PubEnv) (anonymous : Bool)
    (template : EventTemplate) (a : String) (xs : List String)
    (h1 : strStartsWith a "35834:" = true)
    (h2 : deriveIsGroupMember env a = true) :
    publishToGroupsPrivately env anonymous template (a :: xs)
      = match publishToGroupsPrivately env anonymous template xs with
        | (Except.ok res, trace) =>
          (Except.ok ⟨privRumors env anonymous template a ++ res.events,
                      privCalls env anonymous template a ++ res.pubs⟩,
           privCalls env anonymous template a ++ trace)
        | (Except.error e, trace) =>
          (Except.error e, privCalls env anonymous template a ++ trace) := by
  have e1 : ¬ (strStartsWith a "35834:" = false) := by simp [h1]
  have e2 : ¬ (deriveIsGroupMember env a = false) := by simp [h2]
  simp only [publishToGroupsPrivately]
  rw [if_neg e1, if_neg e2]

/-- The trace of a valid head iteration prepends its calls, whatever the
tail does. -/
theorem publishPrivately_trace_cons (env : PubEnv) (anonymous : Bool)
    (template : EventTemplate) (a : String) (xs : List String)
    (h1 : strStartsWith a "35834:" = true)
    (h2 : deriveIsGroupMember env a = true) :
    (publishToGroupsPrivately env anonymous template (a :: xs)).2
      = privCalls env anonymous template a
          ++ (publishToGroupsPrivately env anonymous template xs).2 := by
  rw [publishPrivately_cons_ok env anonymous template a xs h1 h2]
  rcases h : publishToGroupsPrivately env anonymous template xs with ⟨er, tr⟩
  cases er <;> simp

/-- Every call the private path dispatches carries a wrapped envelope,
never a plainly signed event. -/
theorem publishPrivately_trace_wrapped (env : PubEnv) (anonymous : Bool)
    (template : EventTemplate) :
    ∀ (addresses : List String) (c : PublishCall),
      c ∈ (publishToGroupsPrivately env anonymous template addresses).2 →
      ∃ r, c.event = PubEvent.wrapped r
  | [], c, hc => absurd hc (by simp [publishToGroupsPrivately])
  | a :: rest, c, hc => by
    simp only [publishToGroupsPrivately] at hc
    by_cases h1 : strStartsWith a "35834:" = false
    · rw [if_pos h1] at hc; simp at hc
    · rw [if_neg h1] at hc
      by_cases h2 : deriveIsGroupMember env a = false
      · rw [if_pos h2] at hc; simp at hc
      · rw [if_neg h2] at hc
        rcases hrest : publishToGroupsPrivately env anonymous template rest
          with ⟨er, tr⟩
        rw [hrest] at hc
        have hc' : c ∈ privCalls env anonymous template a ++ tr := by
          cases er <;> simpa using hc
        rcases List.mem_append.mp hc' with h | h
        · obtain ⟨r, _, rfl⟩ := List.mem_map.mp h
          exact ⟨r, rfl⟩
        · exact publishPrivately_trace_wrapped env anonymous template rest c
            (by rw [hrest]; exact h)

/-- A public-path validation failure happens before its network call: an
erroring `publishToGroupsPublicly` dispatches nothing. -/
theorem publishPublicly_error_no_calls (env : PubEnv) (anonymous : Bool)
    (template : EventTemplate) (addresses : List String) (e : PubErr)
    (he : (publishToGroupsPublicly env anonymous template addresses).1
      = Except.error e) :
    (publishToGroupsPublicly env anonymous template addresses).2 = [] := by
  unfold publishToGroupsPublicly at he ⊢
  rcases hf : addresses.find? (fun a => !(strStartsWith a "34550:"))
    with _ | a
  · rw [hf] at he; simp at he
  · rfl

/-- C2 (amended): the private path validates addresses in order and rejects
synchronously at the first invalid one (wrong kind, or access not Granted),
before any publish for that address or any later address; but envelopes for
the earlier valid addresses — exactly one per address — have already been
dispatched by then.  (The claim as stated promises that no envelope for ANY
address is dispatched; that fails whenever a valid address precedes the
invalid one.) -/
theorem claim2_first_invalid_rejects (env : PubEnv) (anonymous : Bool)
    (template : EventTemplate) (bad : String) (rest : List String)
    (hbad : privAddressOk env bad = false) :
    ∀ (pre : List String), (∀ a ∈ pre, privAddressOk env a = true) →
      publishToGroupsPrivately env anonymous template (pre ++ bad :: rest)
        = (Except.error (privErrFor bad),
           (publishToGroupsPrivately env anonymous template pre).2) ∧
      (publishToGroupsPrivately env anonymous template pre).2.length
        = pre.length
  | [], _ => by
    constructor
    · simp only [List.nil_append]
      by_cases hb1 : strStartsWith bad "35834:" = false
      · simp only [publishToGroupsPrivately, if_pos hb1, privErrFor]
      · have hb2 : deriveIsGroupMember env bad = false := by
          unfold privAddressOk at hbad
          cases hsw : strStartsWith bad "35834:" with
          | false => exact absurd hsw hb1
          | true => rw [hsw] at hbad; simpa using hbad
        simp only [publishToGroupsPrivately, if_neg hb1, if_pos hb2,
          privErrFor]
    · simp [publishToGroupsPrivately]
  | a :: pre, hpre => by
    have ha := hpre a (List.mem_cons_self a pre)
    rw [privAddressOk, Bool.and_eq_true] at ha
    obtain ⟨h1, h2⟩ := ha
    have IH := claim2_first_invalid_rejects env anonymous template bad rest
      hbad pre (fun x hx => hpre x (List.mem_cons_of_mem a hx))
    constructor
    · have hsplit : (a :: pre) ++ bad :: rest = a :: (pre ++ bad :: rest) :=
        rfl
      rw [hsplit, publishPrivately_cons_ok env anonymous template a _ h1 h2,
        IH.1, publishPrivately_trace_cons env anonymous template a pre h1 h2]
    · rw [publishPrivately_trace_cons env anonymous template a pre h1 h2]
      rw [List.length_append, privCalls_length, IH.2, List.length_cons]
      omega

/-- C2 counterexample: with the valid, Granted address `"35834:g"` followed
by the non-member address `"35834:h"`, the call does reject — but only
after the envelope for `"35834:g"` has been dispatched (one publish call in
the trace), contradicting "no envelope for any address in the list is
dispatched". -/
theorem claim2_counterexample :
    (publishToGroupsPrivately env1 false t0 ["35834:g", "35834:h"]).1
        = Except.error (PubErr.notMember "35834:h")
      ∧ (publishToGroupsPrivately env1 false t0 ["35834:g", "35834:h"]).2
        = [w1call] :=
  ⟨rfl, rfl⟩

theorem claim2_witness :
    privAddressOk env1 "35834:h" = false ∧
    privAddressOk env1 "35834:g" = true ∧
    publishToGroupsPrivately env1 false t0 (["35834:g"] ++ "35834:h" :: [])
      = (Except.error (privErrFor "35834:h"),
         (publishToGroupsPrivately env1 false t0 ["35834:g"]).2) :=
  ⟨by decide, by decide,
   (claim2_first_invalid_rejects env1 false t0 "35834:h" [] (by decide)
     ["35834:g"] (by decide)).1⟩

/-- C1 (amended): in `publishToZeroOrMoreGroups` with a mixed address list,
the private branch runs first and a validation failure there propagates:
the orchestrator rethrows it, the public branch is never executed (every
call in the trace is a wrapped private envelope — no public event is
produced or dispatched); conversely a public-branch validation failure is
raised synchronously before any network call of the public branch, after
the private branch's publishes have already been dispatched.  (The claim as
stated promises the public branch still proceeds when the private branch
rejects; the code awaits the private branch with no exception handling, so
its rejection aborts the whole call.) -/
theorem claim1_private_failure_blocks_public (env : PubEnv)
    (anonymous : Bool) (template : EventTemplate) (addresses : List String)
    (hw : addresses.filter (fun a => strStartsWith a "35834:") ≠ [])
    (hnw : addresses.filter (fun a => !(strStartsWith a "35834:")) ≠ []) :
    (∀ e trace,
      publishToGroupsPrivately env anonymous template
          (addresses.filter (fun a => strStartsWith a "35834:"))
        = (Except.error e, trace) →
      publishToZeroOrMoreGroups env anonymous template addresses
          = (Except.error e, trace) ∧
        ∀ c ∈ trace, ∃ r, c.event = PubEvent.wrapped r) ∧
    (∀ (res : PrivResult) (trace : List PublishCall) (e2 : PubErr),
      publishToGroupsPrivately env anonymous template
          (addresses.filter (fun a => strStartsWith a "35834:"))
        = (Except.ok res, trace) →
      (publishToGroupsPublicly env anonymous template
          (addresses.filter (fun a => !(strStartsWith a "35834:")))).1
        = Except.error e2 →
      publishToZeroOrMoreGroups env anonymous template addresses
        = (Except.error e2, trace)) := by
  have hane : addresses ≠ [] := by
    intro h; rw [h] at hw; simp at hw
  have hie : addresses.isEmpty = false := by
    cases addresses with
    | nil => exact absurd rfl hane
    | cons a l => rfl
  have hwie : (addresses.filter (fun a => strStartsWith a "35834:")).isEmpty
      = false := by
    cases hfe : addresses.filter (fun a => strStartsWith a "35834:") with
    | nil => exact absurd hfe hw
    | cons a l => rfl
  have hnwie :
      (addresses.filter (fun a => !(strStartsWith a "35834:"))).isEmpty
      = false := by
    cases hfe : addresses.filter (fun a => !(strStartsWith a "35834:")) with
    | nil => exact absurd hfe hnw
    | cons a l => rfl
  constructor
  · intro e trace hpriv
    constructor
    · simp only [publishToZeroOrMoreGroups, hie, Bool.false_eq_true,
        if_false, hwie, hpriv]
    · intro c hc
      exact publishPrivately_trace_wrapped env anonymous template _ c
        (by rw [hpriv]; exact hc)
  · intro res trace e2 hok hpub
    have htr2 := publishPublicly_error_no_calls env anonymous template
      (addresses.filter (fun a => !(strStartsWith a "35834:"))) e2 hpub
    rcases hp : publishToGroupsPublicly env anonymous template
        (addresses.filter (fun a => !(strStartsWith a "35834:")))
      with ⟨er2, tr2⟩
    rw [hp] at hpub htr2
    simp only at hpub htr2
    subst hpub htr2
    simp only [publishToZeroOrMoreGroups, hie, Bool.false_eq_true, if_false,
      hwie, hok, hnwie, hp, List.append_nil]

/-- C1 counterexample: a mixed list whose private address is rejected (not
a member).  The claim as stated predicts the public branch still produces
and dispatches its event; the code propagates the private branch's error
and makes no publish call at all (empty trace — in particular no public
dispatch). -/
theorem claim1_counterexample :
    publishToZeroOrMoreGroups env0 false t0 ["35834:a", "34550:b"]
      = (Except.error (PubErr.notMember "35834:a"), []) := rfl

theorem claim1_witness :
    (["35834:g", "9999:c"].filter (fun a => strStartsWith a "35834:")) ≠ []
    ∧ (["35834:g", "9999:c"].filter (fun a => !(strStartsWith a "35834:")))
        ≠ []
    ∧ publishToZeroOrMoreGroups env1 false t0 ["35834:g", "9999:c"]
        = (Except.error (PubErr.invalidPublic "9999:c"), [w1call]) :=
  ⟨by decide, by decide,
   (claim1_private_failure_blocks_public env1 false t0 ["35834:g", "9999:c"]
       (by decide) (by decide)).2
     ⟨[w1rumor], [w1call]⟩ [w1call] (PubErr.invalidPublic "9999:c") rfl rfl⟩

end Coracle
